import Mathlib

/-!
Verification of the pairing enumerator in `src/Isserlis.py`.

The Python module defines three functions:

* `isserlis(set_)` — a generator that walks `itertools.permutations(range(n))`
  (`n = len(set_)`), keeps the permutations accepted by the inner canonical-form
  `test`, and yields `[set_[p.index(i)] for i in range(n)]` for each accepted `p`;
* `isserlis_stationary(set_)` — reduces each yielded partition of an integer
  sequence to the tuple of lag counts `tuple(l.count(i) for i in range(max(l)+1))`
  where `l = [abs(el[j+1]-el[j]) for j in range(0, n, 2)]`;
* `isserlis_stationary_analytical(set_)` — maps each distinct token of the input
  to the integer `2**k - 1` and delegates to `isserlis_stationary`.

The embedding below is a direct translation.  Generators are modelled by their
full run: the list of all yielded values if no exception is raised, and
`Except.error "ValueError"` when a `t.index(v)` lookup fails or `max` is applied
to an empty list (the two ways the Python code can raise).
-/

set_option maxHeartbeats 1000000

namespace IsserlisPy

/-- Python's `t.index(v)`: the index of the first occurrence of `v` in `t`,
or `none` when `v` does not occur (Python raises `ValueError` there). -/
def pyIndexOf {α : Type} [DecidableEq α] : List α → α → Option ℕ
  | [], _ => none
  | a :: t, v => if a = v then some 0 else (pyIndexOf t v).map (· + 1)

/-- The loop of the inner function `test` of `isserlis` (src/Isserlis.py
lines 45-53): iterate over `j in range(0, n_els, 2)` carrying the cursor `i`.
The Python `or` in `if temp < i or temp > t.index(j+1)` short-circuits, so
`t.index(j+1)` is evaluated only when `temp >= i`; a failed lookup raises
`ValueError`, modelled by `.error`. -/
def testLoop (t : List ℕ) : List ℕ → ℕ → Except String Bool
  | [], _ => .ok true
  | j :: js, i =>
    match pyIndexOf t j with
    | none => .error "ValueError"
    | some temp =>
      if temp < i then .ok false
      else
        match pyIndexOf t (j + 1) with
        | none => .error "ValueError"
        | some tj1 =>
          if tj1 < temp then .ok false
          else testLoop t js temp

/-- The canonical-form test `test(n_els, t)` of src/Isserlis.py lines 45-53.
It first computes `i = t.index(0)`; Python's `range(0, n_els, 2)` is
`List.range' 0 ((n_els + 1) / 2) 2`. -/
def test (n_els : ℕ) (t : List ℕ) : Except String Bool :=
  match pyIndexOf t 0 with
  | none => .error "ValueError"
  | some i => testLoop t (List.range' 0 ((n_els + 1) / 2) 2) i

/-- All ways to pick one element out of a list, in position order:
`selections l` lists the pairs `(l[i], l with position i removed)` for
`i = 0, 1, ...`. -/
def selections {α : Type} : List α → List (α × List α)
  | [] => []
  | a :: t => (a, t) :: (selections t).map (fun s => (s.1, a :: s.2))

/-- Fuelled enumeration of the permutations of a list in the order of
Python's `itertools.permutations`: each element is picked as head in
position order, followed by the permutations of the remainder.  The fuel
is always the length of the list being permuted. -/
def pyPermsAux {α : Type} : ℕ → List α → List (List α)
  | 0, _ => [[]]
  | fuel + 1, l => (selections l).flatMap (fun s => (pyPermsAux fuel s.2).map (s.1 :: ·))

/-- Python's `itertools.permutations(l)` (full length), in generation
order: lexicographic over the sequences of picked positions. -/
def pyPermutations {α : Type} (l : List α) : List (List α) :=
  pyPermsAux l.length l

/-- The partition yielded for an accepted permutation `p` (src/Isserlis.py
line 56): `[set_[p.index(i)] for i in range(n_elements)]`.  For `p` a
permutation of `range set_.length` every lookup succeeds and every index is
in bounds, so the `getD` defaults are never reached. -/
def yieldOf {α : Type} [Inhabited α] (set_ : List α) (p : List ℕ) : List α :=
  (List.range set_.length).map (fun i => set_.getD ((pyIndexOf p i).getD 0) default)

/-- Full run of the generator `isserlis` over a list of candidate
permutations: each candidate is passed to `test` in order; a `ValueError`
aborts the whole run, otherwise the partitions of accepted candidates are
collected in emission order. -/
def isserlisRun {α : Type} [Inhabited α] (set_ : List α) :
    List (List ℕ) → Except String (List (List α))
  | [] => .ok []
  | p :: ps =>
    match test set_.length p with
    | .error e => .error e
    | .ok b =>
      match isserlisRun set_ ps with
      | .error e => .error e
      | .ok rest => .ok (if b then yieldOf set_ p :: rest else rest)

/-- The generator `isserlis(set_)` of src/Isserlis.py lines 35-56, modelled
by its full run over `permutations(range(n_elements))`. -/
def isserlis {α : Type} [Inhabited α] (set_ : List α) : Except String (List (List α)) :=
  isserlisRun set_ (pyPermutations (List.range set_.length))

/-- Python's `max` on a list of naturals: `ValueError` on the empty list. -/
def pyMax : List ℕ → Except String ℕ
  | [] => .error "ValueError"
  | a :: t => .ok (t.foldl max a)

/-- The lag list `l = [abs(el[j+1]-el[j]) for j in range(0, n_elements, 2)]`
of src/Isserlis.py line 67 (`n_elements` is the length of the input of
`isserlis_stationary`). -/
def lagsOf (n_elements : ℕ) (el : List ℤ) : List ℕ :=
  (List.range' 0 ((n_elements + 1) / 2) 2).map
    (fun j => (el.getD (j + 1) 0 - el.getD j 0).natAbs)

/-- The shape `tuple([l.count(i) for i in range(max(l)+1)])` of
src/Isserlis.py line 68. -/
def shapeOf (l : List ℕ) : Except String (List ℕ) :=
  match pyMax l with
  | .error e => .error e
  | .ok m => .ok ((List.range (m + 1)).map (fun i => l.count i))

/-- Effectful map used to run a generator body over a list of inputs:
stops at the first `ValueError`. -/
def mapE {α β : Type} (f : α → Except String β) : List α → Except String (List β)
  | [] => .ok []
  | a :: t =>
    match f a with
    | .error e => .error e
    | .ok b =>
      match mapE f t with
      | .error e => .error e
      | .ok bs => .ok (b :: bs)

/-- The generator `isserlis_stationary(set_)` of src/Isserlis.py
lines 58-68, modelled by its full run. -/
def isserlis_stationary (set_ : List ℤ) : Except String (List (List ℕ)) :=
  match isserlis set_ with
  | .error e => .error e
  | .ok parts => mapE (fun el => shapeOf (lagsOf set_.length el)) parts

/-- The distinct elements of a list in order of first occurrence.  This
models the iteration order of Python's `set(set_)` in src/Isserlis.py
line 77: the language leaves that order unspecified, and the spec only
requires some deterministic total order such as first-occurrence order,
which is the one fixed here. -/
def firstOccurrencesAux {α : Type} [DecidableEq α] : ℕ → List α → List α
  | 0, _ => []
  | _ + 1, [] => []
  | fuel + 1, a :: t => a :: firstOccurrencesAux fuel (t.filter (fun x => x ≠ a))

/-- The distinct-element enumeration itself; the fuel is the length of the
list, which bounds the recursion depth. -/
def firstOccurrences {α : Type} [DecidableEq α] (l : List α) : List α :=
  firstOccurrencesAux l.length l

/-- The integer `correspondances[el] = 2**k - 1` that
`isserlis_stationary_analytical` assigns to the token `el`, where `k` is the
position of `el` in the enumeration of the distinct tokens
(src/Isserlis.py line 79). -/
def assignedValue {α : Type} [DecidableEq α] (set_ : List α) (el : α) : ℤ :=
  (2 : ℤ) ^ ((pyIndexOf (firstOccurrences set_) el).getD 0) - 1

/-- The function `isserlis_stationary_analytical(set_)` of src/Isserlis.py
lines 70-81: each distinct token `el` (the `k`-th in the deterministic
enumeration of `set(set_)`) is assigned the integer `2**k - 1`, the input is
mapped through this correspondence, and the mapped sequence is returned
together with its stationary reduction. -/
def isserlis_stationary_analytical {α : Type} [DecidableEq α] (set_ : List α) :
    List ℤ × Except String (List (List ℕ)) :=
  let set_to_numbers := set_.map (assignedValue set_)
  (set_to_numbers, isserlis_stationary set_to_numbers)

/-! ### Analysis-side definitions

The remaining definitions are not translations of Python code; they are the
vocabulary in which the behaviour of the translated functions is stated and
proved: the inverse list of a permutation, the canonical-form predicate it
satisfies exactly when `test` accepts, the set of position pairs a partition
represents, and a direct recursive enumeration of canonical forms used for
counting. -/

/-- The list `[p.index(0), p.index(1), ..., p.index(n-1)]` of positions: the
inverse of the permutation `p` of `range n`, as a list. -/
def inv (n : ℕ) (p : List ℕ) : List ℕ :=
  (List.range n).map (fun j => (pyIndexOf p j).getD 0)

/-- State-carrying form of the canonical-pairing condition, read along the
inverse list: each pair must be increasing, and successive pairs must start
at increasing positions.  Odd-length tails are rejected. -/
def chainB : ℕ → List ℕ → Bool
  | _, [] => true
  | _, [_] => false
  | i, a :: b :: rest => if a < i then false else if b < a then false else chainB a rest

/-- Canonical-pairing form of a list: pairs `(r 0, r 1), (r 2, r 3), ...` are
increasing and sorted by first component. -/
def canonB : List ℕ → Bool
  | [] => true
  | a :: rest => chainB a (a :: rest)

/-- Whether a `test` outcome is a successful acceptance. -/
def isOkTrue : Except String Bool → Bool
  | .ok true => true
  | _ => false

/-- The permutations of `range n` accepted by `test`, in generation order:
exactly the ones whose partitions `isserlis` yields. -/
def acceptedPerms (n : ℕ) : List (List ℕ) :=
  (pyPermutations (List.range n)).filter (fun p => isOkTrue (test n p))

/-- Successive disjoint pairs of a list. -/
def pairsOf : List ℕ → List (ℕ × ℕ)
  | a :: b :: rest => (a, b) :: pairsOf rest
  | _ => []

/-- The set of unordered pairs formed by the successive entries of a list. -/
def pairFinset (r : List ℕ) : Finset (Finset ℕ) :=
  ((pairsOf r).map (fun ab => ({ab.1, ab.2} : Finset ℕ))).toFinset

/-- The set of unordered pairs of original-sequence positions represented by
the partition that `isserlis` yields for the accepted permutation `p`. -/
def pairSet (n : ℕ) (p : List ℕ) : Finset (Finset ℕ) :=
  pairFinset (inv n p)

/-- Direct enumeration of the canonical-form lists over a given
duplicate-free sorted list of values: pick the least value, pick its partner
among the rest, recurse.  Fuel is the length of the value list. -/
def canonListsAux : ℕ → List ℕ → List (List ℕ)
  | 0, _ => [[]]
  | 1, _ => []
  | _ + 2, [] => []
  | fuel + 2, a :: t =>
    t.flatMap (fun b => (canonListsAux fuel (t.erase b)).map (fun r => a :: b :: r))

/-- All canonical-form lists over the values of `s` (`s` sorted, no
duplicates). -/
def canonLists (s : List ℕ) : List (List ℕ) :=
  canonListsAux s.length s

/-! ### Lemmas about `pyIndexOf` -/

theorem pyIndexOf_eq_none_iff {α : Type} [DecidableEq α] {t : List α} {v : α} :
    pyIndexOf t v = none ↔ v ∉ t := by
  induction t with
  | nil => simp [pyIndexOf]
  | cons a t ih =>
    by_cases h : a = v
    · subst h; simp [pyIndexOf]
    · simp [pyIndexOf, h, ih, Ne.symm h]

theorem pyIndexOf_isSome_of_mem {α : Type} [DecidableEq α] {t : List α} {v : α}
    (h : v ∈ t) : ∃ i, pyIndexOf t v = some i := by
  rcases ho : pyIndexOf t v with _ | i
  · exact absurd (pyIndexOf_eq_none_iff.mp ho) (by simp [h])
  · exact ⟨i, rfl⟩

theorem pyIndexOf_getElem? {α : Type} [DecidableEq α] :
    ∀ {t : List α} {v : α} {i : ℕ}, pyIndexOf t v = some i → t[i]? = some v := by
  intro t
  induction t with
  | nil => intro v i h; simp [pyIndexOf] at h
  | cons a t ih =>
    intro v i h
    by_cases hav : a = v
    · subst hav
      have h0 : pyIndexOf (a :: t) a = some 0 := by simp [pyIndexOf]
      rw [h0] at h
      obtain rfl : (0 : ℕ) = i := Option.some.inj h
      simp
    · simp only [pyIndexOf, if_neg hav, Option.map_eq_some'] at h
      obtain ⟨j, hj, rfl⟩ := h
      simpa using ih hj

theorem pyIndexOf_lt_length {α : Type} [DecidableEq α] {t : List α} {v : α} {i : ℕ}
    (h : pyIndexOf t v = some i) : i < t.length := by
  have := pyIndexOf_getElem? h
  exact (List.getElem?_eq_some.mp this).1

theorem pyIndexOf_of_getElem? {α : Type} [DecidableEq α] :
    ∀ {t : List α}, t.Nodup → ∀ {i : ℕ} {v : α}, t[i]? = some v → pyIndexOf t v = some i := by
  intro t
  induction t with
  | nil => intro _ i v h; simp at h
  | cons a t ih =>
    intro hnd i v h
    rcases i with _ | i
    · simp at h
      simp [pyIndexOf, h]
    · simp at h
      have hvt : v ∈ t := by
        obtain ⟨hlt, hget⟩ := List.getElem?_eq_some.mp h
        exact hget ▸ List.getElem_mem hlt
      have hav : a ≠ v := fun hh => (List.nodup_cons.mp hnd).1 (hh ▸ hvt)
      simp [pyIndexOf, hav, ih (List.nodup_cons.mp hnd).2 h]

theorem pyIndexOf_injective_value {α : Type} [DecidableEq α] {t : List α} {v w : α} {i : ℕ}
    (hv : pyIndexOf t v = some i) (hw : pyIndexOf t w = some i) : v = w := by
  have h1 := pyIndexOf_getElem? hv
  have h2 := pyIndexOf_getElem? hw
  rw [h1] at h2
  exact (Option.some.injEq _ _).mp h2

theorem pyIndexOf_append_left {α : Type} [DecidableEq α] {t₁ : List α} {v : α} {i : ℕ}
    (h : pyIndexOf t₁ v = some i) (t₂ : List α) : pyIndexOf (t₁ ++ t₂) v = some i := by
  induction t₁ generalizing i with
  | nil => simp [pyIndexOf] at h
  | cons a t ih =>
    by_cases hav : a = v
    · simp only [pyIndexOf, if_pos hav, Option.some.injEq] at h
      simp [pyIndexOf, hav, ← h]
    · simp only [pyIndexOf, if_neg hav, Option.map_eq_some'] at h
      obtain ⟨j, hj, rfl⟩ := h
      simp [pyIndexOf, hav, ih hj]

theorem pyIndexOf_append_right {α : Type} [DecidableEq α] {t₁ : List α} {v : α}
    (h : v ∉ t₁) (t₂ : List α) :
    pyIndexOf (t₁ ++ t₂) v = (pyIndexOf t₂ v).map (· + t₁.length) := by
  induction t₁ with
  | nil => simp
  | cons a t ih =>
    have hav : a ≠ v := fun hh => h (by simp [hh])
    have hvt : v ∉ t := fun hh => h (by simp [hh])
    rw [List.cons_append]
    show (if a = v then some 0 else (pyIndexOf (t ++ t₂) v).map (· + 1)) = _
    rw [if_neg hav, ih hvt]
    cases pyIndexOf t₂ v with
    | none => rfl
    | some j =>
      simp only [Option.map_some', Option.some.injEq, List.length_cons]
      omega

theorem pyIndexOf_range {n j : ℕ} (h : j < n) : pyIndexOf (List.range n) j = some j := by
  induction n with
  | zero => omega
  | succ n ih =>
    rw [List.range_succ]
    rcases Nat.lt_or_ge j n with hj | hj
    · exact pyIndexOf_append_left (ih hj) _
    · have hj' : j = n := by omega
      subst hj'
      rw [pyIndexOf_append_right (by simp) _]
      simp [pyIndexOf, List.length_range]

/-! ### Lemmas about `selections` and `pyPermutations` -/

theorem selections_map_fst {α : Type} : ∀ l : List α, (selections l).map Prod.fst = l := by
  intro l
  induction l with
  | nil => rfl
  | cons a t ih => simp [selections, List.map_map, Function.comp_def, ih]

theorem length_of_mem_selections {α : Type} :
    ∀ {l : List α} {s : α × List α}, s ∈ selections l → s.2.length + 1 = l.length := by
  intro l
  induction l with
  | nil => intro s h; simp [selections] at h
  | cons a t ih =>
    intro s h
    simp only [selections, List.mem_cons, List.mem_map] at h
    rcases h with rfl | ⟨s', hs', rfl⟩
    · simp
    · simpa using ih hs'

theorem perm_of_mem_selections {α : Type} :
    ∀ {l : List α} {s : α × List α}, s ∈ selections l → (s.1 :: s.2).Perm l := by
  intro l
  induction l with
  | nil => intro s h; simp [selections] at h
  | cons a t ih =>
    intro s h
    simp only [selections, List.mem_cons, List.mem_map] at h
    rcases h with rfl | ⟨s', hs', rfl⟩
    · exact List.Perm.refl _
    · exact (List.Perm.swap a s'.1 s'.2).trans ((ih hs').cons a)

theorem mem_selections_of_mem {α : Type} [DecidableEq α] :
    ∀ {l : List α} {x : α}, x ∈ l → (x, l.erase x) ∈ selections l := by
  intro l
  induction l with
  | nil => intro x h; simp at h
  | cons a t ih =>
    intro x h
    by_cases hxa : x = a
    · subst hxa
      simp [selections, List.erase_cons_head]
    · have hxt : x ∈ t := by
        rcases List.mem_cons.mp h with h' | h'
        · exact absurd h' hxa
        · exact h'
      have hax : a ≠ x := fun h' => hxa h'.symm
      rw [List.erase_cons_tail (by simp [hax])]
      simp only [selections, List.mem_cons, List.mem_map]
      exact Or.inr ⟨(x, t.erase x), ih hxt, rfl⟩

theorem mem_pyPermsAux {α : Type} [DecidableEq α] :
    ∀ (fuel : ℕ) (l : List α), fuel = l.length →
      ∀ {p : List α}, p ∈ pyPermsAux fuel l ↔ p.Perm l := by
  intro fuel
  induction fuel with
  | zero =>
    intro l hl p
    have : l = [] := List.length_eq_zero.mp hl.symm
    subst this
    simp [pyPermsAux, List.perm_nil]
  | succ fuel ih =>
    intro l hl p
    constructor
    · intro hp
      simp only [pyPermsAux, List.mem_flatMap, List.mem_map] at hp
      obtain ⟨s, hs, q, hq, rfl⟩ := hp
      have hlen : fuel = s.2.length := by
        have := length_of_mem_selections hs
        omega
      have hq' : q.Perm s.2 := (ih s.2 hlen).mp hq
      exact (hq'.cons s.1).trans (perm_of_mem_selections hs)
    · intro hp
      rcases p with _ | ⟨x, q⟩
      · have : l = [] := List.perm_nil.mp hp.symm
        subst this
        simp at hl
      · have hxl : x ∈ l := hp.mem_iff.mp (by simp)
        have hql : q.Perm (l.erase x) :=
          (List.Perm.cons_inv (hp.trans (List.perm_cons_erase hxl)))
        have hlen : fuel = (l.erase x).length := by
          have h1 := hp.length_eq
          have h2 := List.length_erase_of_mem hxl
          simp at h1
          omega
        simp only [pyPermsAux, List.mem_flatMap, List.mem_map]
        exact ⟨(x, l.erase x), mem_selections_of_mem hxl, q, (ih _ hlen).mpr hql, rfl⟩

theorem mem_pyPermutations {α : Type} [DecidableEq α] {l p : List α} :
    p ∈ pyPermutations l ↔ p.Perm l :=
  mem_pyPermsAux l.length l rfl

theorem nodup_pyPermsAux {α : Type} :
    ∀ (fuel : ℕ) (l : List α), fuel = l.length → l.Nodup → (pyPermsAux fuel l).Nodup := by
  intro fuel
  induction fuel with
  | zero => intro l _ _; simp [pyPermsAux]
  | succ fuel ih =>
    intro l hl hnd
    rw [pyPermsAux, List.nodup_flatMap]
    constructor
    · intro s hs
      have hlen : fuel = s.2.length := by
        have := length_of_mem_selections hs
        omega
      have hsnd : s.2.Nodup :=
        ((perm_of_mem_selections hs).nodup_iff.mpr hnd).of_cons
      have hinj : Function.Injective (s.1 :: · : List α → List α) := by
        intro q q' h
        injection h
      exact (ih s.2 hlen hsnd).map hinj
    · have hfst : ((selections l).map Prod.fst).Nodup := by
        rw [selections_map_fst]
        exact hnd
      have hpair : (selections l).Pairwise (fun s t => s.1 ≠ t.1) := by
        rw [List.Nodup, List.pairwise_map] at hfst
        exact hfst
      refine hpair.imp ?_
      intro s t hst x hx hy
      simp only [List.mem_map] at hx hy
      obtain ⟨q, _, rfl⟩ := hx
      obtain ⟨q', _, heq⟩ := hy
      apply hst
      injection heq with h1 _
      exact h1.symm

theorem nodup_pyPermutations {α : Type} {l : List α} (hnd : l.Nodup) :
    (pyPermutations l).Nodup :=
  nodup_pyPermsAux l.length l rfl hnd

theorem pyPermsAux_head {α : Type} :
    ∀ (fuel : ℕ) (l : List α), fuel = l.length →
      ∃ rest, pyPermsAux fuel l = l :: rest := by
  intro fuel
  induction fuel with
  | zero =>
    intro l hl
    have : l = [] := List.length_eq_zero.mp hl.symm
    subst this
    exact ⟨[], rfl⟩
  | succ fuel ih =>
    intro l hl
    rcases l with _ | ⟨a, t⟩
    · simp at hl
    · have hlen : fuel = t.length := by simpa using hl
      obtain ⟨rest, hrest⟩ := ih t hlen
      refine ⟨(rest.map (a :: ·)) ++
        ((selections t).map (fun s => (s.1, a :: s.2))).flatMap
          (fun s => (pyPermsAux fuel s.2).map (s.1 :: ·)), ?_⟩
      simp only [pyPermsAux, selections, List.flatMap_cons, hrest]
      simp

/-! ### The canonical-form test read along the inverse list -/

theorem chainB_cons_cons (i c d : ℕ) (r : List ℕ) :
    chainB i (c :: d :: r) = ((!decide (c < i)) && canonB (c :: d :: r)) := by
  simp only [chainB, canonB]
  by_cases h1 : c < i <;> by_cases h2 : d < c <;>
    simp [chainB, h1, h2, Nat.lt_irrefl]

theorem testLoop_eq_chainB {p : List ℕ} {q : ℕ → ℕ} :
    ∀ (c k i : ℕ),
      (∀ j, 2 * k ≤ j → j < 2 * k + 2 * c → pyIndexOf p j = some (q j)) →
      testLoop p (List.range' (2 * k) c 2) i =
        .ok (chainB i ((List.range' (2 * k) (2 * c) 1).map q)) := by
  intro c
  induction c with
  | zero => intro k i _; simp [testLoop, chainB]
  | succ c ih =>
    intro k i hcov
    have h0 : pyIndexOf p (2 * k) = some (q (2 * k)) := hcov _ le_rfl (by omega)
    have h1 : pyIndexOf p (2 * k + 1) = some (q (2 * k + 1)) := hcov _ (by omega) (by omega)
    have hsplit : List.range' (2 * k) (2 * (c + 1)) 1 =
        2 * k :: (2 * k + 1) :: List.range' (2 * k + 2) (2 * c) 1 := by
      have h2 : 2 * (c + 1) = (2 * c + 1) + 1 := by ring
      rw [h2, List.range'_succ, List.range'_succ]
    rw [List.range'_succ, hsplit]
    simp only [testLoop, h0, h1, List.map_cons]
    rw [chainB_cons_cons]
    by_cases hlt : q (2 * k) < i
    · simp [hlt]
    · by_cases hba : q (2 * k + 1) < q (2 * k)
      · simp only [if_neg hlt, if_pos hba]
        simp [canonB, chainB, hba, hlt]
      · simp only [if_neg hlt, if_neg hba]
        have hrec := ih (k + 1) (q (2 * k))
          (fun j hj1 hj2 => hcov j (by omega) (by omega))
        have harg : 2 * (k + 1) = 2 * k + 2 := by ring
        rw [harg] at hrec
        rw [hrec]
        simp [canonB, chainB, hba, hlt]

/-- The inverse list is pointwise the successful result of `p.index`. -/
theorem pyIndexOf_eq_some_getD {n : ℕ} {p : List ℕ} (hp : p.Perm (List.range n))
    {j : ℕ} (hj : j < n) : pyIndexOf p j = some ((pyIndexOf p j).getD 0) := by
  have hmem : j ∈ p := hp.mem_iff.mpr (List.mem_range.mpr hj)
  obtain ⟨i, hi⟩ := pyIndexOf_isSome_of_mem hmem
  rw [hi]
  rfl

/-- On a permutation of `range n` with `n` even and positive, `test` returns
without error, and accepts exactly when the inverse list is canonical. -/
theorem test_eq_canonB {n : ℕ} {p : List ℕ} (hn : n % 2 = 0) (hpos : 0 < n)
    (hp : p.Perm (List.range n)) :
    test n p = .ok (canonB (inv n p)) := by
  have h0 : pyIndexOf p 0 = some ((pyIndexOf p 0).getD 0) :=
    pyIndexOf_eq_some_getD hp hpos
  have hcov : ∀ j, 2 * 0 ≤ j → j < 2 * 0 + 2 * (n / 2) →
      pyIndexOf p j = some ((pyIndexOf p j).getD 0) := by
    intro j _ hj
    exact pyIndexOf_eq_some_getD hp (by omega)
  have hhalf : (n + 1) / 2 = n / 2 := by omega
  have hbridge := testLoop_eq_chainB (p := p) (q := fun j => (pyIndexOf p j).getD 0)
    (n / 2) 0 ((pyIndexOf p 0).getD 0) hcov
  have hfull : 2 * (n / 2) = n := by omega
  rw [test, h0, hhalf]
  simp only [Nat.mul_zero, Nat.zero_add] at hbridge ⊢
  rw [hbridge, hfull]
  congr 1
  have hr : List.range n = List.range' 0 n 1 := List.range_eq_range' n
  rcases n with _ | m
  · omega
  · have hsplit : List.range' 0 (m + 1) 1 = 0 :: List.range' 1 m 1 := by
      rw [List.range'_succ]
    rw [inv, hr, hsplit]
    simp only [List.map_cons]
    rfl

/-- On the identity permutation with `n` odd, the test loop runs off the end:
the lookup `t.index(j+1)` at the last even `j = n - 1` raises `ValueError`. -/
theorem testLoop_range_error {n : ℕ} :
    ∀ (c j i : ℕ), 0 < c → i ≤ j → j + 2 * c = n + 1 → j < n →
      testLoop (List.range n) (List.range' j c 2) i = .error "ValueError" := by
  intro c
  induction c with
  | zero => intro j i h; omega
  | succ c ih =>
    intro j i _ hij hsum hjn
    have hj : pyIndexOf (List.range n) j = some j := pyIndexOf_range hjn
    rw [List.range'_succ]
    rcases Nat.eq_zero_or_pos c with rfl | hc
    · have hjn1 : j + 1 = n := by omega
      have hnone : pyIndexOf (List.range n) (j + 1) = none := by
        rw [pyIndexOf_eq_none_iff, hjn1]
        simp
      simp [testLoop, hj, hnone, Nat.not_lt.mpr hij]
    · have hj1 : j + 1 < n := by omega
      have hsome : pyIndexOf (List.range n) (j + 1) = some (j + 1) := pyIndexOf_range hj1
      have hrec := ih (j + 2) j hc (by omega) (by omega) (by omega)
      simp [testLoop, hj, hsome, Nat.not_lt.mpr hij, hrec]

/-- For odd `n`, `test` raises on the identity permutation (the first
permutation generated). -/
theorem test_range_error {n : ℕ} (hn : n % 2 = 1) :
    test n (List.range n) = .error "ValueError" := by
  have hpos : 0 < n := by omega
  have h0 : pyIndexOf (List.range n) 0 = some 0 := pyIndexOf_range hpos
  have hc : 0 < (n + 1) / 2 := by omega
  have hsum : 0 + 2 * ((n + 1) / 2) = n + 1 := by omega
  rw [test, h0]
  exact testLoop_range_error ((n + 1) / 2) 0 0 hc le_rfl hsum hpos

/-! ### The inverse list -/

theorem length_inv (n : ℕ) (p : List ℕ) : (inv n p).length = n := by
  simp [inv]

theorem inv_getElem? {n : ℕ} (p : List ℕ) {j : ℕ} (hj : j < n) :
    (inv n p)[j]? = some ((pyIndexOf p j).getD 0) := by
  simp [inv, hj]

theorem nodup_inv {n : ℕ} {p : List ℕ} (hp : p.Perm (List.range n)) :
    (inv n p).Nodup := by
  apply List.Nodup.map_on _ (List.nodup_range n)
  intro x hx y hy hxy
  rw [List.mem_range] at hx hy
  have hxs := pyIndexOf_eq_some_getD hp hx
  have hys := pyIndexOf_eq_some_getD hp hy
  exact pyIndexOf_injective_value hxs (by rw [hys, hxy])

theorem mem_inv_lt {n : ℕ} {p : List ℕ} (hp : p.Perm (List.range n)) {x : ℕ}
    (hx : x ∈ inv n p) : x < n := by
  simp only [inv, List.mem_map, List.mem_range] at hx
  obtain ⟨j, hj, rfl⟩ := hx
  have hs := pyIndexOf_eq_some_getD hp hj
  have := pyIndexOf_lt_length hs
  rwa [hp.length_eq, List.length_range] at this

theorem inv_perm_range {n : ℕ} {p : List ℕ} (hp : p.Perm (List.range n)) :
    (inv n p).Perm (List.range n) := by
  have hsub : List.Subperm (inv n p) (List.range n) := by
    apply List.subperm_of_subset (nodup_inv hp)
    intro x hx
    exact List.mem_range.mpr (mem_inv_lt hp hx)
  apply hsub.perm_of_length_le
  rw [List.length_range, length_inv]

theorem inv_inv {n : ℕ} {p : List ℕ} (hp : p.Perm (List.range n)) :
    inv n (inv n p) = p := by
  have hpnd : p.Nodup := hp.nodup_iff.mpr (List.nodup_range n)
  have hplen : p.length = n := by rw [hp.length_eq, List.length_range]
  apply List.ext_getElem?
  intro j
  rcases Nat.lt_or_ge j n with hj | hj
  · have hpj : p[j]? = some p[j] := List.getElem?_eq_getElem (by omega)
    set v := p[j] with hv
    have hvn : v < n := by
      have : v ∈ p := List.getElem_mem _
      have := hp.mem_iff.mp this
      exact List.mem_range.mp this
    have hpv : pyIndexOf p v = some j := pyIndexOf_of_getElem? hpnd hpj
    have hinvv : (inv n p)[v]? = some j := by
      rw [inv_getElem? p hvn, hpv]
      rfl
    have hq : pyIndexOf (inv n p) j = some v :=
      pyIndexOf_of_getElem? (nodup_inv hp) hinvv
    rw [inv_getElem? (inv n p) hj, hq, hpj]
    rfl
  · rw [List.getElem?_eq_none (by rw [length_inv]; omega),
      List.getElem?_eq_none (by omega)]

/-! ### Structure of the canonical-form predicate -/

theorem canonB_nil : canonB [] = true := rfl

theorem canonB_single (a : ℕ) : canonB [a] = false := rfl

theorem canonB_pair (a b : ℕ) : canonB [a, b] = !decide (b < a) := by
  by_cases h : b < a <;> simp [canonB, chainB, h]

theorem canonB_cons_cons_cons (a b c : ℕ) (r : List ℕ) :
    canonB (a :: b :: c :: r) =
      ((!decide (b < a)) && (!decide (c < a)) && canonB (c :: r)) := by
  rcases r with _ | ⟨d, r'⟩
  · by_cases h1 : b < a <;> simp [canonB, chainB, h1]
  · rw [show canonB (a :: b :: c :: d :: r') = chainB a (a :: b :: c :: d :: r') from rfl]
    rw [show chainB a (a :: b :: c :: d :: r') =
      (if a < a then false else if b < a then false else chainB a (c :: d :: r')) from rfl]
    rw [chainB_cons_cons]
    by_cases h1 : b < a <;> simp [h1, Nat.lt_irrefl, Bool.and_assoc]

theorem canonB_head_le :
    ∀ (m : ℕ) (a : ℕ) (rest : List ℕ), rest.length ≤ m →
      canonB (a :: rest) = true → ∀ x ∈ a :: rest, a ≤ x := by
  intro m
  induction m with
  | zero =>
    intro a rest hlen _ x hx
    have : rest = [] := List.length_eq_zero.mp (by omega)
    subst this
    simp at hx
    omega
  | succ m ih =>
    intro a rest hlen hc x hx
    rcases rest with _ | ⟨b, rest'⟩
    · simp at hx; omega
    · rcases rest' with _ | ⟨c, rest''⟩
      · rw [canonB_pair] at hc
        simp at hc
        simp at hx
        rcases hx with rfl | rfl
        · omega
        · omega
      · rw [canonB_cons_cons_cons] at hc
        simp only [Bool.and_eq_true, Bool.not_eq_true', decide_eq_false_iff_not,
          Nat.not_lt] at hc
        obtain ⟨⟨hab, hac⟩, hcr⟩ := hc
        have hrec := ih c rest'' (by simp at hlen; omega) hcr
        simp only [List.mem_cons] at hx
        rcases hx with rfl | rfl | hx'
        · omega
        · omega
        · rcases hx' with rfl | hx''
          · omega
          · have := hrec x (List.mem_cons_of_mem _ hx'')
            omega

theorem canonB_even :
    ∀ (m : ℕ) (r : List ℕ), r.length ≤ m → canonB r = true → r.length % 2 = 0 := by
  intro m
  induction m with
  | zero =>
    intro r hlen _
    have : r = [] := List.length_eq_zero.mp (by omega)
    subst this
    rfl
  | succ m ih =>
    intro r hlen hc
    rcases r with _ | ⟨a, rest⟩
    · rfl
    · rcases rest with _ | ⟨b, rest'⟩
      · rw [canonB_single] at hc
        exact absurd hc (by simp)
      · rcases rest' with _ | ⟨c, rest''⟩
        · simp
        · rw [canonB_cons_cons_cons] at hc
          simp only [Bool.and_eq_true] at hc
          have hrec := ih (c :: rest'') (by simp at hlen ⊢; omega) hc.2
          simp only [List.length_cons] at hrec ⊢
          omega

theorem canonB_cons_cons_iff (a b : ℕ) (rest : List ℕ) :
    canonB (a :: b :: rest) = true ↔
      a ≤ b ∧ (∀ x ∈ rest, a ≤ x) ∧ canonB rest = true := by
  constructor
  · intro hc
    rcases rest with _ | ⟨c, rest'⟩
    · rw [canonB_pair] at hc
      simp at hc
      exact ⟨by omega, by simp, rfl⟩
    · rw [canonB_cons_cons_cons] at hc
      simp only [Bool.and_eq_true, Bool.not_eq_true', decide_eq_false_iff_not,
        Nat.not_lt] at hc
      obtain ⟨⟨hab, hac⟩, hcr⟩ := hc
      refine ⟨hab, ?_, hcr⟩
      intro x hx
      have hhead := canonB_head_le rest'.length c rest' le_rfl hcr
      rcases List.mem_cons.mp hx with rfl | hx'
      · exact hac
      · exact le_trans hac (hhead x (List.mem_cons_of_mem _ hx'))
  · rintro ⟨hab, hall, hcr⟩
    rcases rest with _ | ⟨c, rest'⟩
    · rw [canonB_pair]
      simp
      omega
    · rw [canonB_cons_cons_cons]
      simp only [Bool.and_eq_true, Bool.not_eq_true', decide_eq_false_iff_not, Nat.not_lt]
      exact ⟨⟨hab, hall c (by simp)⟩, hcr⟩

/-! ### The enumeration of canonical forms -/

theorem canonListsAux_length :
    ∀ (fuel : ℕ) (s : List ℕ), fuel = s.length → s.Pairwise (· < ·) → fuel % 2 = 0 →
      (canonListsAux fuel s).length = Nat.doubleFactorial (fuel - 1) := by
  intro fuel
  induction fuel using Nat.strong_induction_on with
  | _ fuel ih =>
    match fuel with
    | 0 => intro s _ _ _; rfl
    | 1 => intro s _ _ h; omega
    | (m + 2) =>
      intro s hlen hsort _
      rcases s with _ | ⟨a, t⟩
      · simp at hlen
      · have htlen : t.length = m + 1 := by simpa using hlen.symm
        have htsort : t.Pairwise (· < ·) := hsort.of_cons
        rw [canonListsAux, List.length_flatMap]
        have hinner : ∀ b ∈ t,
            ((canonListsAux m ((t.erase b))).map (fun r => a :: b :: r)).length =
              Nat.doubleFactorial (m - 1) := by
          intro b hb
          rw [List.length_map]
          have herase : (t.erase b).length = m := by
            rw [List.length_erase_of_mem hb]
            omega
          have hesort : (t.erase b).Pairwise (· < ·) :=
            List.Pairwise.sublist (t.erase_sublist b) htsort
          exact ih m (by omega) (t.erase b) herase.symm hesort (by omega)
        have hmap : (List.map (List.length ∘ fun b =>
            List.map (fun r => a :: b :: r) (canonListsAux m (t.erase b))) t).sum =
            (t.map (fun _ => Nat.doubleFactorial (m - 1))).sum := by
          congr 1
          apply List.map_congr_left
          intro b hb
          simpa using hinner b hb
        rw [hmap, List.map_const', List.sum_replicate, smul_eq_mul, htlen]
        rcases Nat.eq_zero_or_pos m with rfl | hm
        · simp [Nat.doubleFactorial]
        · have h2 : m + 2 - 1 = (m - 1) + 2 := by omega
          rw [h2, Nat.doubleFactorial]
          have h3 : m - 1 + 2 = m + 1 := by omega
          rw [h3]

theorem canonListsAux_mem :
    ∀ (fuel : ℕ) (s : List ℕ), fuel = s.length → s.Pairwise (· < ·) →
      ∀ {r : List ℕ}, r ∈ canonListsAux fuel s ↔ (r.Perm s ∧ canonB r = true) := by
  intro fuel
  induction fuel using Nat.strong_induction_on with
  | _ fuel ih =>
    match fuel with
    | 0 =>
      intro s hlen _ r
      have : s = [] := List.length_eq_zero.mp hlen.symm
      subst this
      constructor
      · intro h
        simp [canonListsAux] at h
        subst h
        exact ⟨List.Perm.refl _, rfl⟩
      · intro ⟨h, _⟩
        have : r = [] := List.perm_nil.mp h
        simp [canonListsAux, this]
    | 1 =>
      intro s hlen _ r
      constructor
      · intro h
        simp [canonListsAux] at h
      · intro ⟨hperm, hcan⟩
        have : r.length % 2 = 0 := canonB_even r.length r le_rfl hcan
        have hl := hperm.length_eq
        omega
    | (m + 2) =>
      intro s hlen hsort r
      rcases s with _ | ⟨a, t⟩
      · simp at hlen
      · have htlen : t.length = m + 1 := by simpa using hlen.symm
        have htsort : t.Pairwise (· < ·) := hsort.of_cons
        have halt : ∀ x ∈ t, a < x := fun x hx => List.rel_of_pairwise_cons hsort hx
        constructor
        · intro h
          simp only [canonListsAux, List.mem_flatMap, List.mem_map] at h
          obtain ⟨b, hb, r', hr', rfl⟩ := h
          have herase : (t.erase b).length = m := by
            rw [List.length_erase_of_mem hb]
            omega
          have hesort : (t.erase b).Pairwise (· < ·) :=
            List.Pairwise.sublist (t.erase_sublist b) htsort
          obtain ⟨hperm', hcan'⟩ :=
            (ih m (by omega) (t.erase b) herase.symm hesort).mp hr'
          have hbt : (b :: t.erase b).Perm t := (List.perm_cons_erase hb).symm
          have hperm : (a :: b :: r').Perm (a :: t) :=
            ((hperm'.cons b).trans hbt).cons a
          refine ⟨hperm, ?_⟩
          rw [canonB_cons_cons_iff]
          refine ⟨le_of_lt (halt b hb), ?_, hcan'⟩
          intro x hx
          have hxt : x ∈ t := (t.erase_sublist b).mem (hperm'.mem_iff.mp hx)
          exact le_of_lt (halt x hxt)
        · intro ⟨hperm, hcan⟩
          have hrlen : r.length = m + 2 := by
            have := hperm.length_eq
            simpa [htlen] using this
          rcases r with _ | ⟨x, r₁⟩
          · simp at hrlen
          · rcases r₁ with _ | ⟨y, r''⟩
            · simp at hrlen
            · obtain ⟨hxy, hall, hcan''⟩ := (canonB_cons_cons_iff x y r'').mp hcan
              have hxa : x = a := by
                have hxs : x ∈ a :: t := hperm.mem_iff.mp (by simp)
                have hax : a ≤ x := by
                  rcases List.mem_cons.mp hxs with rfl | hx'
                  · exact le_rfl
                  · exact le_of_lt (halt x hx')
                have has : a ∈ x :: y :: r'' := hperm.mem_iff.mpr (by simp)
                have hxa' : x ≤ a := by
                  rcases List.mem_cons.mp has with rfl | ha'
                  · exact le_rfl
                  · rcases List.mem_cons.mp ha' with rfl | ha''
                    · exact hxy
                    · exact hall a ha''
                omega
              subst hxa
              have htail : (y :: r'').Perm t := hperm.cons_inv
              have hyt : y ∈ t := htail.mem_iff.mp (by simp)
              have hr'' : r''.Perm (t.erase y) :=
                (htail.trans (List.perm_cons_erase hyt)).cons_inv
              have herase : (t.erase y).length = m := by
                rw [List.length_erase_of_mem hyt]
                omega
              have hesort : (t.erase y).Pairwise (· < ·) :=
                List.Pairwise.sublist (t.erase_sublist y) htsort
              have hmem'' : r'' ∈ canonListsAux m (t.erase y) :=
                (ih m (by omega) (t.erase y) herase.symm hesort).mpr ⟨hr'', hcan''⟩
              simp only [canonListsAux, List.mem_flatMap, List.mem_map]
              exact ⟨y, hyt, r'', hmem'', rfl⟩

theorem canonListsAux_nodup :
    ∀ (fuel : ℕ) (s : List ℕ), fuel = s.length → s.Pairwise (· < ·) →
      (canonListsAux fuel s).Nodup := by
  intro fuel
  induction fuel using Nat.strong_induction_on with
  | _ fuel ih =>
    match fuel with
    | 0 => intro s _ _; simp [canonListsAux]
    | 1 => intro s _ _; simp [canonListsAux]
    | (m + 2) =>
      intro s hlen hsort
      rcases s with _ | ⟨a, t⟩
      · simp at hlen
      · have htlen : t.length = m + 1 := by simpa using hlen.symm
        have htsort : t.Pairwise (· < ·) := hsort.of_cons
        rw [canonListsAux, List.nodup_flatMap]
        constructor
        · intro b hb
          have herase : (t.erase b).length = m := by
            rw [List.length_erase_of_mem hb]
            omega
          have hesort : (t.erase b).Pairwise (· < ·) :=
            List.Pairwise.sublist (t.erase_sublist b) htsort
          have hinj : Function.Injective (fun r => a :: b :: r : List ℕ → List ℕ) := by
            intro u v h
            injection h with _ h'
            injection h'
          exact (ih m (by omega) (t.erase b) herase.symm hesort).map hinj
        · have : t.Pairwise (· ≠ ·) := htsort.imp Nat.ne_of_lt
          refine this.imp ?_
          intro b c hbc x hx hy
          simp only [List.mem_map] at hx hy
          obtain ⟨u, _, rfl⟩ := hx
          obtain ⟨v, _, heq⟩ := hy
          injection heq with _ h'
          injection h' with h'' _
          exact hbc h''.symm

/-! ### Counting the accepted permutations -/

theorem isOkTrue_ok (b : Bool) : isOkTrue (.ok b) = b := by
  cases b <;> rfl

theorem mem_acceptedPerms {n : ℕ} {p : List ℕ} :
    p ∈ acceptedPerms n ↔ p.Perm (List.range n) ∧ isOkTrue (test n p) = true := by
  rw [acceptedPerms, List.mem_filter, mem_pyPermutations]

theorem acceptedPerms_eq_filter_canon {n : ℕ} (hn : n % 2 = 0) (hpos : 0 < n) :
    acceptedPerms n =
      (pyPermutations (List.range n)).filter (fun p => canonB (inv n p)) := by
  rw [acceptedPerms]
  apply List.filter_congr
  intro p hp
  rw [test_eq_canonB hn hpos (mem_pyPermutations.mp hp), isOkTrue_ok]

theorem length_filter_canon {n : ℕ} :
    ((pyPermutations (List.range n)).filter (fun p => canonB (inv n p))).length =
      ((pyPermutations (List.range n)).filter canonB).length := by
  set M := pyPermutations (List.range n) with hM
  have hMnodup : M.Nodup := nodup_pyPermutations (List.nodup_range n)
  have hmem : ∀ p ∈ M, p.Perm (List.range n) := fun p hp => mem_pyPermutations.mp hp
  have hmapnodup : (M.map (inv n)).Nodup := by
    apply List.Nodup.map_on _ hMnodup
    intro x hx y hy hxy
    calc x = inv n (inv n x) := (inv_inv (hmem x hx)).symm
    _ = inv n (inv n y) := by rw [hxy]
    _ = y := inv_inv (hmem y hy)
  have hsetmem : ∀ r, r ∈ M.map (inv n) ↔ r ∈ M := by
    intro r
    constructor
    · intro hr
      obtain ⟨p, hp, rfl⟩ := List.mem_map.mp hr
      exact mem_pyPermutations.mpr (inv_perm_range (hmem p hp))
    · intro hr
      exact List.mem_map.mpr
        ⟨inv n r, mem_pyPermutations.mpr (inv_perm_range (hmem r hr)), inv_inv (hmem r hr)⟩
  have hperm : (M.map (inv n)).Perm M :=
    (List.perm_ext_iff_of_nodup hmapnodup hMnodup).mpr hsetmem
  calc (M.filter (fun p => canonB (inv n p))).length
      = ((M.map (inv n)).filter canonB).length := by
        rw [List.filter_map, List.length_map]
        rfl
    _ = (M.filter canonB).length := (hperm.filter canonB).length_eq

theorem length_acceptedPerms {n : ℕ} (hn : n % 2 = 0) (hpos : 0 < n) :
    (acceptedPerms n).length = Nat.doubleFactorial (n - 1) := by
  rw [acceptedPerms_eq_filter_canon hn hpos, length_filter_canon]
  set M := pyPermutations (List.range n) with hM
  have hMnodup : M.Nodup := nodup_pyPermutations (List.nodup_range n)
  have hsort : (List.range n).Pairwise (· < ·) := List.pairwise_lt_range n
  have hclnodup : (canonLists (List.range n)).Nodup :=
    canonListsAux_nodup _ _ (by rw [List.length_range]) hsort
  have hfilnodup : (M.filter canonB).Nodup := hMnodup.filter _
  have hsetmem : ∀ r, r ∈ M.filter canonB ↔ r ∈ canonLists (List.range n) := by
    intro r
    rw [List.mem_filter, mem_pyPermutations, canonLists]
    exact (canonListsAux_mem (List.range n).length (List.range n) rfl hsort).symm
  have hperm : (M.filter canonB).Perm (canonLists (List.range n)) :=
    (List.perm_ext_iff_of_nodup hfilnodup hclnodup).mpr hsetmem
  rw [hperm.length_eq, canonLists,
    canonListsAux_length _ _ rfl hsort (by rw [List.length_range]; exact hn)]
  rw [List.length_range]

/-! ### Running the generator -/

theorem isserlisRun_ok {α : Type} [Inhabited α] (set_ : List α) :
    ∀ perms : List (List ℕ),
      (∀ p ∈ perms, ∃ b, test set_.length p = .ok b) →
      isserlisRun set_ perms =
        .ok ((perms.filter (fun p => isOkTrue (test set_.length p))).map (yieldOf set_)) := by
  intro perms
  induction perms with
  | nil => intro _; rfl
  | cons p ps ih =>
    intro hall
    obtain ⟨b, hb⟩ := hall p (by simp)
    rw [isserlisRun, hb, ih (fun q hq => hall q (by simp [hq]))]
    cases b
    · simp [List.filter_cons, hb, isOkTrue]
    · simp [List.filter_cons, hb, isOkTrue]

theorem isserlisRun_mem {α : Type} [Inhabited α] {set_ : List α} :
    ∀ {perms : List (List ℕ)} {out : List (List α)},
      isserlisRun set_ perms = .ok out →
      ∀ x ∈ out, ∃ p ∈ perms, test set_.length p = .ok true ∧ x = yieldOf set_ p := by
  intro perms
  induction perms with
  | nil =>
    intro out h x hx
    rw [isserlisRun] at h
    obtain rfl : ([] : List (List α)) = out := by
      injection h
    simp at hx
  | cons p ps ih =>
    intro out h x hx
    rw [isserlisRun] at h
    rcases htest : test set_.length p with e | b
    · rw [htest] at h; exact absurd h (by simp)
    · rw [htest] at h
      rcases hrec : isserlisRun set_ ps with e' | rest
      · rw [hrec] at h; exact absurd h (by simp)
      · rw [hrec] at h
        obtain rfl : (if b then yieldOf set_ p :: rest else rest) = out := by
          injection h
        cases b
        · rw [if_neg Bool.false_ne_true] at hx
          obtain ⟨q, hq, hq2, hq3⟩ := ih hrec x hx
          exact ⟨q, by simp [hq], hq2, hq3⟩
        · rw [if_pos rfl] at hx
          rcases List.mem_cons.mp hx with rfl | hx'
          · exact ⟨p, by simp, htest, rfl⟩
          · obtain ⟨q, hq, hq2, hq3⟩ := ih hrec x hx'
            exact ⟨q, by simp [hq], hq2, hq3⟩

theorem isserlis_ok_of_even {α : Type} [Inhabited α] (set_ : List α)
    (hn : set_.length % 2 = 0) (hpos : 0 < set_.length) :
    isserlis set_ = .ok ((acceptedPerms set_.length).map (yieldOf set_)) := by
  rw [isserlis, isserlisRun_ok]
  · rw [acceptedPerms]
  · intro p hp
    exact ⟨_, test_eq_canonB hn hpos (mem_pyPermutations.mp hp)⟩

theorem isserlis_error_of_odd {α : Type} [Inhabited α] (set_ : List α)
    (hn : set_.length % 2 = 1) :
    isserlis set_ = .error "ValueError" := by
  obtain ⟨rest, hrest⟩ :=
    pyPermsAux_head (List.range set_.length).length (List.range set_.length) rfl
  rw [isserlis, pyPermutations, hrest, isserlisRun]
  rw [show test set_.length (List.range set_.length) = .error "ValueError" from by
    have := test_range_error (n := set_.length) hn
    simpa using this]

/-! ### The yielded partitions -/

theorem map_getD_range {α : Type} [Inhabited α] (set_ : List α) :
    (List.range set_.length).map (fun j => set_.getD j default) = set_ := by
  induction set_ with
  | nil => rfl
  | cons a t ih =>
    rw [List.length_cons, List.range_succ_eq_map, List.map_cons, List.map_map]
    congr 1

theorem yieldOf_eq_map_inv {α : Type} [Inhabited α] (set_ : List α) (p : List ℕ) :
    yieldOf set_ p = (inv set_.length p).map (fun j => set_.getD j default) := by
  rw [yieldOf, inv, List.map_map]
  rfl

theorem yieldOf_perm {α : Type} [Inhabited α] {set_ : List α} {p : List ℕ}
    (hp : p.Perm (List.range set_.length)) : (yieldOf set_ p).Perm set_ := by
  rw [yieldOf_eq_map_inv]
  have h1 := (inv_perm_range hp).map (fun j => set_.getD j default)
  rwa [map_getD_range] at h1

theorem inv_head_zero {n : ℕ} {p : List ℕ} (hp : p.Perm (List.range n))
    (hcan : canonB (inv n p) = true) (hpos : 0 < n) :
    (pyIndexOf p 0).getD 0 = 0 := by
  obtain ⟨m, rfl⟩ : ∃ m, n = m + 1 := ⟨n - 1, by omega⟩
  have hsplit : inv (m + 1) p =
      ((pyIndexOf p 0).getD 0) ::
        (List.range m).map (fun j => (pyIndexOf p (j + 1)).getD 0) := by
    rw [inv, List.range_succ_eq_map, List.map_cons, List.map_map]
    rfl
  have hmem0 : (0 : ℕ) ∈ inv (m + 1) p :=
    (inv_perm_range hp).mem_iff.mpr (List.mem_range.mpr hpos)
  rw [hsplit] at hcan hmem0
  have := canonB_head_le _ _ _ le_rfl hcan 0 hmem0
  omega

theorem yieldOf_head {α : Type} [Inhabited α] {set_ : List α} {p : List ℕ}
    (hp : p.Perm (List.range set_.length))
    (hcan : canonB (inv set_.length p) = true) (hpos : 0 < set_.length) :
    (yieldOf set_ p).head? = set_.head? := by
  rcases hset : set_ with _ | ⟨a, t⟩
  · subst hset; simp at hpos
  · subst hset
    rw [yieldOf, List.length_cons, List.range_succ_eq_map, List.map_cons]
    rw [inv_head_zero hp hcan hpos]
    rfl

/-! ### Lemmas about `mapE`, `pyMax` and shapes -/

theorem mapE_ok_mem {α β : Type} {f : α → Except String β} :
    ∀ {l : List α} {out : List β}, mapE f l = .ok out →
      ∀ y ∈ out, ∃ x ∈ l, f x = .ok y := by
  intro l
  induction l with
  | nil =>
    intro out h y hy
    obtain rfl : ([] : List β) = out := by injection h
    simp at hy
  | cons a t ih =>
    intro out h y hy
    rw [mapE] at h
    rcases hfa : f a with e | b
    · rw [hfa] at h; exact absurd h (by simp)
    · rw [hfa] at h
      rcases hrec : mapE f t with e' | bs
      · rw [hrec] at h; exact absurd h (by simp)
      · rw [hrec] at h
        obtain rfl : b :: bs = out := by injection h
        rcases List.mem_cons.mp hy with rfl | hy'
        · exact ⟨a, by simp, hfa⟩
        · obtain ⟨x, hx, hx2⟩ := ih hrec y hy'
          exact ⟨x, by simp [hx], hx2⟩

theorem mapE_ok_of_forall {α β : Type} {f : α → Except String β} :
    ∀ {l : List α}, (∀ x ∈ l, ∃ y, f x = .ok y) → ∃ out, mapE f l = .ok out := by
  intro l
  induction l with
  | nil => intro _; exact ⟨[], rfl⟩
  | cons a t ih =>
    intro hall
    obtain ⟨b, hb⟩ := hall a (by simp)
    obtain ⟨bs, hbs⟩ := ih (fun x hx => hall x (by simp [hx]))
    exact ⟨b :: bs, by rw [mapE, hb, hbs]⟩

theorem le_foldl_max_init : ∀ (t : List ℕ) (a : ℕ), a ≤ t.foldl max a := by
  intro t
  induction t with
  | nil => intro a; exact le_rfl
  | cons b t ih =>
    intro a
    calc a ≤ max a b := le_max_left _ _
    _ ≤ (b :: t).foldl max a := by rw [List.foldl_cons]; exact ih (max a b)

theorem le_foldl_max_of_mem : ∀ (t : List ℕ) (a x : ℕ), x ∈ t → x ≤ t.foldl max a := by
  intro t
  induction t with
  | nil => intro a x h; simp at h
  | cons b t ih =>
    intro a x h
    rw [List.foldl_cons]
    rcases List.mem_cons.mp h with rfl | h'
    · calc x ≤ max a x := le_max_right _ _
      _ ≤ t.foldl max (max a x) := le_foldl_max_init _ _
    · exact ih (max a b) x h'

theorem foldl_max_le_bound {t : List ℕ} {a x : ℕ} (hx : x ∈ a :: t) :
    x ≤ t.foldl max a := by
  rcases List.mem_cons.mp hx with rfl | h'
  · exact le_foldl_max_init _ _
  · exact le_foldl_max_of_mem _ _ _ h'

theorem foldl_max_mem : ∀ (t : List ℕ) (a : ℕ), t.foldl max a ∈ a :: t := by
  intro t
  induction t with
  | nil => intro a; simp
  | cons b t ih =>
    intro a
    rw [List.foldl_cons]
    have := ih (max a b)
    rcases List.mem_cons.mp this with heq | h'
    · rcases max_choice a b with hab | hab
      · rw [heq, hab]; simp
      · rw [heq, hab]; simp
    · simp [h']

theorem sum_list_range (f : ℕ → ℕ) : ∀ k, ((List.range k).map f).sum = ∑ i ∈ Finset.range k, f i := by
  intro k
  induction k with
  | zero => simp
  | succ k ih =>
    rw [List.range_succ, List.map_append, List.sum_append, Finset.sum_range_succ, ih]
    simp

theorem sum_count_range {k : ℕ} :
    ∀ (l : List ℕ), (∀ x ∈ l, x < k) → (∑ i ∈ Finset.range k, l.count i) = l.length := by
  intro l
  induction l with
  | nil => simp
  | cons a t ih =>
    intro hall
    have hak : a ∈ Finset.range k := Finset.mem_range.mpr (hall a (by simp))
    have hcount : ∀ i, (a :: t).count i = t.count i + if i = a then 1 else 0 := by
      intro i
      rw [List.count_cons]
      congr 1
      by_cases h : i = a
      · simp [h]
      · simp [h, Ne.symm h]
    calc (∑ i ∈ Finset.range k, (a :: t).count i)
        = ∑ i ∈ Finset.range k, (t.count i + if i = a then 1 else 0) := by
          apply Finset.sum_congr rfl
          intro i _
          exact hcount i
      _ = (∑ i ∈ Finset.range k, t.count i) + ∑ i ∈ Finset.range k, (if i = a then 1 else 0) :=
          Finset.sum_add_distrib
      _ = t.length + 1 := by
          rw [ih (fun x hx => hall x (by simp [hx])), Finset.sum_ite_eq' (Finset.range k) a fun _ => 1,
            if_pos hak]
      _ = (a :: t).length := by simp

theorem shapeOf_sum {l : List ℕ} {shape : List ℕ} (hne : l ≠ [])
    (h : shapeOf l = .ok shape) : shape.sum = l.length := by
  rcases l with _ | ⟨a, t⟩
  · exact absurd rfl hne
  · rw [shapeOf, pyMax] at h
    obtain rfl : (List.range (t.foldl max a + 1)).map (fun i => (a :: t).count i) = shape := by
      injection h
    rw [sum_list_range]
    apply sum_count_range
    intro x hx
    have := foldl_max_le_bound hx
    omega

theorem shapeOf_getLast {l : List ℕ} {shape : List ℕ} (hne : l ≠ [])
    (h : shapeOf l = .ok shape) : ∃ c, shape.getLast? = some c ∧ 0 < c := by
  rcases l with _ | ⟨a, t⟩
  · exact absurd rfl hne
  · rw [shapeOf, pyMax] at h
    obtain rfl : (List.range (t.foldl max a + 1)).map (fun i => (a :: t).count i) = shape := by
      injection h
    refine ⟨(a :: t).count (t.foldl max a), ?_, ?_⟩
    · rw [List.range_succ, List.map_append]
      simp
    · rw [List.count_pos_iff]
      exact foldl_max_mem t a

/-! ### The analytical labelling -/

theorem firstOccurrencesAux_mem {α : Type} [DecidableEq α] :
    ∀ (m : ℕ) (l : List α), l.length ≤ m → ∀ x, (x ∈ firstOccurrencesAux m l ↔ x ∈ l) := by
  intro m
  induction m with
  | zero =>
    intro l hl x
    have : l = [] := List.length_eq_zero.mp (by omega)
    subst this
    simp [firstOccurrencesAux]
  | succ m ih =>
    intro l hl x
    rcases l with _ | ⟨a, t⟩
    · simp [firstOccurrencesAux]
    · rw [firstOccurrencesAux]
      have hflen : (t.filter (fun y => y ≠ a)).length ≤ m := by
        have := List.length_filter_le (fun y => (y ≠ a : Bool)) t
        simp at hl
        omega
      constructor
      · intro h
        rcases List.mem_cons.mp h with rfl | h'
        · simp
        · have := (ih _ hflen x).mp h'
          have := List.mem_of_mem_filter this
          simp [this]
      · intro h
        rcases List.mem_cons.mp h with rfl | h'
        · simp
        · by_cases hxa : x = a
          · simp [hxa]
          · have : x ∈ t.filter (fun y => y ≠ a) :=
              List.mem_filter.mpr ⟨h', by simp [hxa]⟩
            exact List.mem_cons_of_mem _ ((ih _ hflen x).mpr this)

theorem firstOccurrences_mem {α : Type} [DecidableEq α] (l : List α) (x : α) :
    x ∈ firstOccurrences l ↔ x ∈ l :=
  firstOccurrencesAux_mem l.length l le_rfl x

theorem assignedValue_index {α : Type} [DecidableEq α] {set_ : List α} {x : α}
    (hx : x ∈ set_) :
    pyIndexOf (firstOccurrences set_) x =
      some ((pyIndexOf (firstOccurrences set_) x).getD 0) := by
  have : x ∈ firstOccurrences set_ :=
    (firstOccurrences_mem set_ x).mpr hx
  obtain ⟨i, hi⟩ := pyIndexOf_isSome_of_mem this
  rw [hi]
  rfl

theorem assignedValue_index_injective {α : Type} [DecidableEq α] {set_ : List α}
    {x y : α} (hx : x ∈ set_) (hy : y ∈ set_)
    (h : (pyIndexOf (firstOccurrences set_) x).getD 0 =
      (pyIndexOf (firstOccurrences set_) y).getD 0) : x = y := by
  have h1 := assignedValue_index hx
  have h2 := assignedValue_index hy
  rw [h] at h1
  exact pyIndexOf_injective_value h1 h2

/-- The size bound: with exponents `j < i` and `l < k`, equality of the
positive differences `2^i - 2^j = 2^k - 2^l` forces `i = k` and `j = l`. -/
theorem two_pow_sub_injective {i j k l : ℕ} (hij : j < i) (hkl : l < k)
    (h : (2 : ℕ) ^ i - 2 ^ j = 2 ^ k - 2 ^ l) : i = k ∧ j = l := by
  have hji : (2 : ℕ) ^ j ≤ 2 ^ i := Nat.pow_le_pow_right (by norm_num) (le_of_lt hij)
  have hlk : (2 : ℕ) ^ l ≤ 2 ^ k := Nat.pow_le_pow_right (by norm_num) (le_of_lt hkl)
  have hik : i = k := by
    by_contra hne
    rcases Nat.lt_or_ge i k with hlt | hge
    · have h1 : (2 : ℕ) ^ k - 2 ^ l ≥ 2 ^ (k - 1) := by
        have : (2 : ℕ) ^ l ≤ 2 ^ (k - 1) := Nat.pow_le_pow_right (by norm_num) (by omega)
        have h2 : (2 : ℕ) ^ k = 2 * 2 ^ (k - 1) := by
          rw [← pow_succ']
          congr 1
          omega
        omega
      have h3 : (2 : ℕ) ^ i ≤ 2 ^ (k - 1) := Nat.pow_le_pow_right (by norm_num) (by omega)
      have h4 : 0 < (2 : ℕ) ^ l := Nat.pos_pow_of_pos l (by norm_num)
      have h5 : 0 < (2 : ℕ) ^ j := Nat.pos_pow_of_pos j (by norm_num)
      omega
    · have hki : k < i := by omega
      have h1 : (2 : ℕ) ^ i - 2 ^ j ≥ 2 ^ (i - 1) := by
        have : (2 : ℕ) ^ j ≤ 2 ^ (i - 1) := Nat.pow_le_pow_right (by norm_num) (by omega)
        have h2 : (2 : ℕ) ^ i = 2 * 2 ^ (i - 1) := by
          rw [← pow_succ']
          congr 1
          omega
        omega
      have h3 : (2 : ℕ) ^ k ≤ 2 ^ (i - 1) := Nat.pow_le_pow_right (by norm_num) (by omega)
      have h4 : 0 < (2 : ℕ) ^ l := Nat.pos_pow_of_pos l (by norm_num)
      omega
  subst hik
  have hjl : (2 : ℕ) ^ j = 2 ^ l := by omega
  exact ⟨rfl, Nat.pow_right_injective (by norm_num) hjl⟩

theorem abs_value_diff {i j : ℕ} (hij : j < i) :
    |((2 : ℤ) ^ i - 1) - ((2 : ℤ) ^ j - 1)| = ((2 : ℕ) ^ i - 2 ^ j : ℕ) := by
  have hji : (2 : ℤ) ^ j ≤ 2 ^ i := by
    exact_mod_cast Nat.pow_le_pow_right (n := 2) (by norm_num) (le_of_lt hij)
  have hcast : (((2 : ℕ) ^ i - 2 ^ j : ℕ) : ℤ) = (2 : ℤ) ^ i - 2 ^ j := by
    rw [Nat.cast_sub (Nat.pow_le_pow_right (by norm_num) (le_of_lt hij))]
    push_cast
    ring
  rw [hcast]
  rw [show ((2 : ℤ) ^ i - 1) - ((2 : ℤ) ^ j - 1) = 2 ^ i - 2 ^ j by ring]
  exact abs_of_nonneg (by omega)

/-- Distinct pairs of distinct exponents give distinct absolute differences
of the assigned `2^k - 1` values. -/
theorem abs_diff_two_pow {i j k l : ℕ} (hij : i ≠ j) (hkl : k ≠ l)
    (h : |((2 : ℤ) ^ i - 1) - ((2 : ℤ) ^ j - 1)| = |((2 : ℤ) ^ k - 1) - ((2 : ℤ) ^ l - 1)|) :
    (i = k ∧ j = l) ∨ (i = l ∧ j = k) := by
  rcases Nat.lt_or_ge j i with h1 | h1
  · rcases Nat.lt_or_ge l k with h2 | h2
    · rw [abs_value_diff h1, abs_value_diff h2] at h
      have := two_pow_sub_injective h1 h2 (by exact_mod_cast h)
      exact Or.inl this
    · have h2' : k < l := by omega
      rw [abs_value_diff h1, abs_sub_comm, abs_value_diff h2'] at h
      have := two_pow_sub_injective h1 h2' (by exact_mod_cast h)
      exact Or.inr ⟨this.1, this.2⟩
  · have h1' : i < j := by omega
    rcases Nat.lt_or_ge l k with h2 | h2
    · rw [abs_sub_comm, abs_value_diff h1', abs_value_diff h2] at h
      have := two_pow_sub_injective h1' h2 (by exact_mod_cast h)
      exact Or.inr ⟨this.2, this.1⟩
    · have h2' : k < l := by omega
      rw [abs_sub_comm, abs_value_diff h1', abs_sub_comm, abs_value_diff h2'] at h
      have := two_pow_sub_injective h1' h2' (by exact_mod_cast h)
      exact Or.inl ⟨this.2, this.1⟩

/-! ### Distinctness of the represented pair sets -/

theorem pairsOf_mem_left :
    ∀ (m : ℕ) (r : List ℕ), r.length ≤ m → ∀ a b, (a, b) ∈ pairsOf r → a ∈ r ∧ b ∈ r := by
  intro m
  induction m with
  | zero =>
    intro r hr a b h
    have : r = [] := List.length_eq_zero.mp (by omega)
    subst this
    simp [pairsOf] at h
  | succ m ih =>
    intro r hr a b h
    rcases r with _ | ⟨x, r₁⟩
    · simp [pairsOf] at h
    · rcases r₁ with _ | ⟨y, r₂⟩
      · simp [pairsOf] at h
      · rw [pairsOf] at h
        rcases List.mem_cons.mp h with heq | h'
        · obtain ⟨rfl, rfl⟩ : a = x ∧ b = y := by
            constructor <;> injection heq
          simp
        · have := ih r₂ (by simp at hr; omega) a b h'
          exact ⟨by simp [this.1], by simp [this.2]⟩

theorem pairFinset_cons_cons (a b : ℕ) (rest : List ℕ) :
    pairFinset (a :: b :: rest) = insert ({a, b} : Finset ℕ) (pairFinset rest) := by
  rw [pairFinset, pairFinset, pairsOf, List.map_cons, List.toFinset_cons]

theorem mem_pairFinset {P : Finset ℕ} {r : List ℕ} :
    P ∈ pairFinset r ↔ ∃ ab ∈ pairsOf r, P = {ab.1, ab.2} := by
  rw [pairFinset, List.mem_toFinset, List.mem_map]
  constructor
  · rintro ⟨ab, hab, rfl⟩
    exact ⟨ab, hab, rfl⟩
  · rintro ⟨ab, hab, rfl⟩
    exact ⟨ab, hab, rfl⟩

theorem head_not_in_pairFinset {a : ℕ} {t : List ℕ} (hnotin : a ∉ t) {b : ℕ}
    (P : Finset ℕ) (hP : P ∈ pairFinset t) : ¬ ({a, b} : Finset ℕ) = P := by
  intro heq
  obtain ⟨ab, hab, rfl⟩ := mem_pairFinset.mp hP
  have hcomp := pairsOf_mem_left t.length t le_rfl ab.1 ab.2 hab
  have ha : a ∈ ({ab.1, ab.2} : Finset ℕ) := by
    rw [← heq]
    simp
  rcases Finset.mem_insert.mp ha with rfl | ha'
  · exact hnotin hcomp.1
  · rw [Finset.mem_singleton] at ha'
    subst ha'
    exact hnotin hcomp.2

theorem canon_pairFinset_injective :
    ∀ (m : ℕ) (r₁ r₂ : List ℕ), r₁.length ≤ m →
      canonB r₁ = true → canonB r₂ = true → r₁.Nodup → r₁.Perm r₂ →
      pairFinset r₁ = pairFinset r₂ → r₁ = r₂ := by
  intro m
  induction m with
  | zero =>
    intro r₁ r₂ hlen _ _ _ hperm _
    have h1 : r₁ = [] := List.length_eq_zero.mp (by omega)
    subst h1
    exact (List.perm_nil.mp hperm.symm).symm
  | succ m ih =>
    intro r₁ r₂ hlen hc₁ hc₂ hnd₁ hperm hpf
    rcases r₁ with _ | ⟨a₁, r₁'⟩
    · exact (List.perm_nil.mp hperm.symm).symm
    · rcases r₁' with _ | ⟨b₁, t₁⟩
      · rw [canonB_single] at hc₁
        exact absurd hc₁ (by simp)
      · rcases r₂ with _ | ⟨a₂, r₂'⟩
        · exact absurd (List.perm_nil.mp hperm) (by simp)
        · rcases r₂' with _ | ⟨b₂, t₂⟩
          · have := hperm.length_eq
            simp at this
          · have hnd₂ : (a₂ :: b₂ :: t₂).Nodup := hperm.nodup_iff.mp hnd₁
            have ha : a₁ = a₂ := by
              have h1 := canonB_head_le _ _ _ le_rfl hc₁
              have h2 := canonB_head_le _ _ _ le_rfl hc₂
              have ha₂₁ : a₂ ∈ a₁ :: b₁ :: t₁ := hperm.mem_iff.mpr (by simp)
              have ha₁₂ : a₁ ∈ a₂ :: b₂ :: t₂ := hperm.mem_iff.mp (by simp)
              have := h1 a₂ ha₂₁
              have := h2 a₁ ha₁₂
              omega
            subst ha
            have hb : b₁ = b₂ := by
              have hmem : ({a₁, b₁} : Finset ℕ) ∈ pairFinset (a₁ :: b₂ :: t₂) := by
                rw [← hpf, pairFinset_cons_cons]
                simp
              rw [pairFinset_cons_cons] at hmem
              rcases Finset.mem_insert.mp hmem with heq | hmem'
              · have hb₁ : b₁ ∈ ({a₁, b₂} : Finset ℕ) := by
                  rw [← heq]
                  simp
                have hab₁ : b₁ ≠ a₁ := by
                  intro h
                  rw [List.nodup_cons] at hnd₁
                  exact hnd₁.1 (by simp [h.symm])
                rcases Finset.mem_insert.mp hb₁ with h | h
                · exact absurd h hab₁
                · exact Finset.mem_singleton.mp h
              · exfalso
                have hanotin : a₁ ∉ t₂ := by
                  rw [List.nodup_cons] at hnd₂
                  intro h
                  exact hnd₂.1 (by simp [h])
                exact head_not_in_pairFinset hanotin _ hmem' rfl
            subst hb
            have htperm : t₁.Perm t₂ := hperm.cons_inv.cons_inv
            have hct₁ : canonB t₁ = true := ((canonB_cons_cons_iff _ _ _).mp hc₁).2.2
            have hct₂ : canonB t₂ = true := ((canonB_cons_cons_iff _ _ _).mp hc₂).2.2
            have hndt₁ : t₁.Nodup := (List.nodup_cons.mp (List.nodup_cons.mp hnd₁).2).2
            have ha₁t₁ : a₁ ∉ t₁ := by
              rw [List.nodup_cons] at hnd₁
              intro h
              exact hnd₁.1 (by simp [h])
            have ha₁t₂ : a₁ ∉ t₂ := by
              rw [List.nodup_cons] at hnd₂
              intro h
              exact hnd₂.1 (by simp [h])
            have hpft : pairFinset t₁ = pairFinset t₂ := by
              rw [pairFinset_cons_cons, pairFinset_cons_cons] at hpf
              have h1 : ({a₁, b₁} : Finset ℕ) ∉ pairFinset t₁ :=
                fun h => head_not_in_pairFinset ha₁t₁ _ h rfl
              have h2 : ({a₁, b₁} : Finset ℕ) ∉ pairFinset t₂ :=
                fun h => head_not_in_pairFinset ha₁t₂ _ h rfl
              calc pairFinset t₁ = (insert ({a₁, b₁} : Finset ℕ) (pairFinset t₁)).erase {a₁, b₁} :=
                    (Finset.erase_insert h1).symm
                _ = (insert ({a₁, b₁} : Finset ℕ) (pairFinset t₂)).erase {a₁, b₁} := by rw [hpf]
                _ = pairFinset t₂ := Finset.erase_insert h2
            have := ih t₁ t₂ (by simp at hlen; omega) hct₁ hct₂ hndt₁ htperm hpft
            rw [this]

theorem acceptedPerms_pairSet_injective {n : ℕ} (hn : n % 2 = 0) (hpos : 0 < n) :
    ∀ p₁ ∈ acceptedPerms n, ∀ p₂ ∈ acceptedPerms n,
      pairSet n p₁ = pairSet n p₂ → p₁ = p₂ := by
  intro p₁ hp₁ p₂ hp₂ hps
  obtain ⟨hperm₁, hok₁⟩ := mem_acceptedPerms.mp hp₁
  obtain ⟨hperm₂, hok₂⟩ := mem_acceptedPerms.mp hp₂
  rw [test_eq_canonB hn hpos hperm₁, isOkTrue_ok] at hok₁
  rw [test_eq_canonB hn hpos hperm₂, isOkTrue_ok] at hok₂
  have hinv : inv n p₁ = inv n p₂ := by
    apply canon_pairFinset_injective (inv n p₁).length _ _ le_rfl hok₁ hok₂
      (nodup_inv hperm₁) ((inv_perm_range hperm₁).trans (inv_perm_range hperm₂).symm) hps
  calc p₁ = inv n (inv n p₁) := (inv_inv hperm₁).symm
    _ = inv n (inv n p₂) := by rw [hinv]
    _ = p₂ := inv_inv hperm₂

theorem acceptedPerms_pairSets_nodup {n : ℕ} (hn : n % 2 = 0) (hpos : 0 < n) :
    ((acceptedPerms n).map (pairSet n)).Nodup := by
  apply List.Nodup.map_on (acceptedPerms_pairSet_injective hn hpos)
  exact (nodup_pyPermutations (List.nodup_range n)).filter _

/-! ### Claim theorems -/

/-- C1 (counterexample): the claim as stated also covers the empty sequence
(`2n = 0`), where it asserts that `isserlis` yields exactly
`(2*0 - 1)!! = 1` partition; the code instead raises `ValueError`
(`().index(0)` inside `test` on the empty permutation), yielding nothing. -/
theorem isserlis_count_empty_counterexample :
    isserlis ([] : List ℤ) = Except.error "ValueError" ∧
      ¬ ∃ out : List (List ℤ), isserlis ([] : List ℤ) = Except.ok out ∧
        out.length = Nat.doubleFactorial (2 * 0 - 1) := by
  refine ⟨rfl, ?_⟩
  rintro ⟨out, hout, _⟩
  rw [show isserlis ([] : List ℤ) = Except.error "ValueError" from rfl] at hout
  exact absurd hout (by simp)

/-- C1 (amended): for every nonempty even-length input sequence of length
`2n`, `isserlis` succeeds and yields exactly `(2n-1)!!` partitions, namely
one partition per accepted permutation, and the accepted permutations
represent pairwise distinct sets of unordered pairs of original-sequence
positions, independently of repeated symbol values (the input is an
arbitrary list). -/
theorem isserlis_count {α : Type} [Inhabited α] (set_ : List α) (n : ℕ)
    (hlen : set_.length = 2 * n) (hpos : 0 < n) :
    ∃ out, isserlis set_ = Except.ok out ∧
      out = (acceptedPerms set_.length).map (yieldOf set_) ∧
      out.length = Nat.doubleFactorial (2 * n - 1) ∧
      ((acceptedPerms set_.length).map (pairSet set_.length)).Nodup := by
  have hn : set_.length % 2 = 0 := by omega
  have hp : 0 < set_.length := by omega
  refine ⟨_, isserlis_ok_of_even set_ hn hp, rfl, ?_, acceptedPerms_pairSets_nodup hn hp⟩
  rw [List.length_map, length_acceptedPerms hn hp, hlen]

/-- C1 (witness): the amended count theorem applied to the concrete input
`[5, 7]` with `n = 1`. -/
theorem isserlis_count_witness :
    ∃ out, isserlis ([5, 7] : List ℤ) = Except.ok out ∧
      out = (acceptedPerms ([5, 7] : List ℤ).length).map (yieldOf [5, 7]) ∧
      out.length = Nat.doubleFactorial (2 * 1 - 1) ∧
      ((acceptedPerms ([5, 7] : List ℤ).length).map (pairSet ([5, 7] : List ℤ).length)).Nodup :=
  isserlis_count ([5, 7] : List ℤ) 1 rfl Nat.one_pos

/-- C2: every shape yielded by `isserlis_stationary` on an even-length
integer input of length `2n` has entries summing to `n`. -/
theorem stationary_shapes_sum (set_ : List ℤ) (n : ℕ) (hlen : set_.length = 2 * n)
    (shapes : List (List ℕ)) (hok : isserlis_stationary set_ = Except.ok shapes) :
    ∀ shape ∈ shapes, shape.sum = n := by
  intro shape hshape
  rcases Nat.eq_zero_or_pos n with rfl | hn
  · have : set_ = [] := List.length_eq_zero.mp (by omega)
    subst this
    rw [show isserlis_stationary ([] : List ℤ) = Except.error "ValueError" from rfl] at hok
    exact absurd hok (by simp)
  · rw [isserlis_stationary] at hok
    rcases hiss : isserlis set_ with e | parts
    · rw [hiss] at hok
      exact absurd hok (by simp)
    · rw [hiss] at hok
      obtain ⟨part, hpart, hsh⟩ := mapE_ok_mem hok shape hshape
      rw [isserlis] at hiss
      obtain ⟨p, _, _, rfl⟩ := isserlisRun_mem hiss part hpart
      have hlags : (lagsOf set_.length (yieldOf set_ p)).length = n := by
        rw [lagsOf, List.length_map, List.length_range']
        omega
      have hne : lagsOf set_.length (yieldOf set_ p) ≠ [] := by
        intro h
        rw [h] at hlags
        simp at hlags
        omega
      rw [shapeOf_sum hne hsh, hlags]

/-- C2 (witness): applied to the input `[0, 0, 1, 1]` (`n = 2`) and to its
second yielded shape `[0, 2]`, whose entries sum to `2`. -/
theorem stationary_shapes_sum_witness : List.sum [0, 2] = 2 :=
  stationary_shapes_sum [0, 0, 1, 1] 2 (by rfl) [[2], [0, 2], [0, 2]] (by rfl) [0, 2] (by simp)

/-- C3: every partition yielded by `isserlis` is a rearrangement of the
input sequence: its multiset of elements equals the input's multiset. -/
theorem isserlis_partitions_perm {α : Type} [Inhabited α] (set_ : List α)
    (out : List (List α)) (hok : isserlis set_ = Except.ok out) :
    ∀ part ∈ out, part.Perm set_ := by
  intro part hpart
  rw [isserlis] at hok
  obtain ⟨p, hp, _, rfl⟩ := isserlisRun_mem hok part hpart
  exact yieldOf_perm (mem_pyPermutations.mp hp)

/-- C3 (witness): applied to the input `[1, 1, 2, 2]` and to its second
yielded partition `[1, 2, 1, 2]`. -/
theorem isserlis_partitions_perm_witness : ([1, 2, 1, 2] : List ℤ).Perm [1, 1, 2, 2] :=
  isserlis_partitions_perm [1, 1, 2, 2] [[1, 1, 2, 2], [1, 2, 1, 2], [1, 2, 1, 2]] (by rfl)
    [1, 2, 1, 2] (by simp)

/-- C4: the integers `2^k - 1` that `isserlis_stationary_analytical`
assigns to tokens have pairwise absolute differences that determine the
unordered pair of tokens: for tokens of the input with `a ≠ b` and `c ≠ d`,
equality of `|v a - v b|` and `|v c - v d|` forces `{a, b} = {c, d}`.
(In particular no four pairwise distinct tokens can share a difference,
which is the spec's phrasing.) -/
theorem analytical_diff_unique {α : Type} [DecidableEq α] (set_ : List α)
    (a b c d : α) (ha : a ∈ set_) (hb : b ∈ set_) (hc : c ∈ set_) (hd : d ∈ set_)
    (hab : a ≠ b) (hcd : c ≠ d)
    (h : |assignedValue set_ a - assignedValue set_ b| =
      |assignedValue set_ c - assignedValue set_ d|) :
    (a = c ∧ b = d) ∨ (a = d ∧ b = c) := by
  have hij : (pyIndexOf (firstOccurrences set_) a).getD 0 ≠
      (pyIndexOf (firstOccurrences set_) b).getD 0 :=
    fun hh => hab (assignedValue_index_injective ha hb hh)
  have hkl : (pyIndexOf (firstOccurrences set_) c).getD 0 ≠
      (pyIndexOf (firstOccurrences set_) d).getD 0 :=
    fun hh => hcd (assignedValue_index_injective hc hd hh)
  rcases abs_diff_two_pow hij hkl h with ⟨h1, h2⟩ | ⟨h1, h2⟩
  · exact Or.inl ⟨assignedValue_index_injective ha hc h1,
      assignedValue_index_injective hb hd h2⟩
  · exact Or.inr ⟨assignedValue_index_injective ha hd h1,
      assignedValue_index_injective hb hc h2⟩

/-- C4 (witness): applied to the token list `["x", "y"]` with
`a = c = "x"` and `b = d = "y"`. -/
theorem analytical_diff_unique_witness :
    ("x" = "x" ∧ "y" = "y") ∨ ("x" = "y" ∧ "y" = "x") :=
  analytical_diff_unique ["x", "y"] "x" "y" "x" "y" (by simp) (by simp) (by simp) (by simp)
    (by decide) (by decide) rfl

/-- C5: on every input of odd length, `isserlis` fails with the error of
the failed index lookup (`ValueError`, the spec's `InvalidInputError`):
the whole call aborts and yields nothing. -/
theorem isserlis_odd_error {α : Type} [Inhabited α] (set_ : List α)
    (h : set_.length % 2 = 1) : isserlis set_ = Except.error "ValueError" :=
  isserlis_error_of_odd set_ h

/-- C5 (witness): the odd-length input `[3]`. -/
theorem isserlis_odd_error_witness : isserlis ([3] : List ℤ) = Except.error "ValueError" :=
  isserlis_odd_error [3] rfl

/-- C6 (counterexample): on the empty input, `isserlis_stationary` does not
yield the single empty shape; it raises `ValueError` (the lookup
`().index(0)` in `test` fails before anything is yielded). -/
theorem empty_input_counterexample :
    isserlis_stationary ([] : List ℤ) = Except.error "ValueError" ∧
      ¬ ∃ shapes, isserlis_stationary ([] : List ℤ) = Except.ok shapes := by
  refine ⟨rfl, ?_⟩
  rintro ⟨shapes, h⟩
  rw [show isserlis_stationary ([] : List ℤ) = Except.error "ValueError" from rfl] at h
  exact absurd h (by simp)

/-- C6 (amended): the empty sequence is not a valid base case: both
`isserlis` and `isserlis_stationary` fail on it with `ValueError` instead
of yielding the empty pairing and the empty shape. -/
theorem empty_input_error :
    isserlis ([] : List ℤ) = Except.error "ValueError" ∧
      isserlis_stationary ([] : List ℤ) = Except.error "ValueError" :=
  ⟨rfl, rfl⟩

/-- C7 (counterexample): on the token input `['t','t','t+t_1','t+t_1']`
the stationary reduction never yields the shape `(1, 1)`: the yielded
shapes are `(2)`, `(0, 2)`, `(0, 2)` (one double lag-0 pairing and the two
double lag-1 cross pairings); a combination of one lag-0 pair and one
lag-1 pair is impossible for the mapped sequence `[0, 0, 1, 1]`. -/
theorem analytical_scenario_counterexample :
    (isserlis_stationary_analytical ["t", "t", "t+t_1", "t+t_1"]).2 =
        Except.ok [[2], [0, 2], [0, 2]] ∧
      [1, 1] ∉ [[2], [0, 2], [0, 2]] := by
  exact ⟨by rfl, by decide⟩

/-- C7 (amended): with the distinct tokens enumerated in first-occurrence
order, `isserlis_stationary_analytical` on `['t','t','t+t_1','t+t_1']`
assigns `t -> 0` and `t+t_1 -> 1`, returns the mapped sequence
`[0, 0, 1, 1]`, and the stationary reduction yields the shapes
`(2)`, `(0, 2)`, `(0, 2)` (each summing to 2); the shape `(1, 1)` does not
occur. -/
theorem analytical_scenario :
    isserlis_stationary_analytical ["t", "t", "t+t_1", "t+t_1"] =
      ([0, 0, 1, 1], Except.ok [[2], [0, 2], [0, 2]]) := by rfl

/-- C8: `isserlis` is a pure function of its input in this embedding (the
Python function reads but never mutates `set_` and uses no global state),
so two runs on the same input yield the same partitions, in particular the
same multiset of partitions. -/
theorem isserlis_deterministic {α : Type} [Inhabited α] (set_ : List α)
    (out₁ out₂ : List (List α)) (h₁ : isserlis set_ = Except.ok out₁)
    (h₂ : isserlis set_ = Except.ok out₂) : out₁.Perm out₂ := by
  rw [h₁] at h₂
  obtain rfl : out₁ = out₂ := by injection h₂
  exact List.Perm.refl _

/-- C8 (witness): two runs on `[1, 2]`. -/
theorem isserlis_deterministic_witness : ([[1, 2]] : List (List ℤ)).Perm [[1, 2]] :=
  isserlis_deterministic [1, 2] [[1, 2]] [[1, 2]] (by rfl) (by rfl)

/-- C9: on a nonempty even-length input, every yielded partition starts
with the first element of the input sequence: each accepted permutation
satisfies `p.index(0) = 0`, so output slot 0 holds `set_[0]`. -/
theorem isserlis_head_eq {α : Type} [Inhabited α] (set_ : List α)
    (hn : set_.length % 2 = 0) (hne : set_ ≠ [])
    (out : List (List α)) (hok : isserlis set_ = Except.ok out) :
    ∀ part ∈ out, part.head? = set_.head? := by
  intro part hpart
  rw [isserlis] at hok
  obtain ⟨p, hp, htest, rfl⟩ := isserlisRun_mem hok part hpart
  have hperm := mem_pyPermutations.mp hp
  have hpos : 0 < set_.length := List.length_pos.mpr hne
  rw [test_eq_canonB hn hpos hperm] at htest
  have hcan : canonB (inv set_.length p) = true := by
    injection htest
  exact yieldOf_head hperm hcan hpos

/-- C9 (witness): applied to the input `[1, 1, 2, 2]` and its second
yielded partition `[1, 2, 1, 2]`. -/
theorem isserlis_head_eq_witness :
    ([1, 2, 1, 2] : List ℤ).head? = ([1, 1, 2, 2] : List ℤ).head? :=
  isserlis_head_eq [1, 1, 2, 2] (by rfl) (by decide)
    [[1, 1, 2, 2], [1, 2, 1, 2], [1, 2, 1, 2]] (by rfl) [1, 2, 1, 2] (by simp)

/-- C10: on a nonempty even-length integer input, every yielded shape has a
strictly positive last entry (its last index is the maximal lag, which
occurs at least once), so no shape carries trailing zeros. -/
theorem stationary_last_positive (set_ : List ℤ) (hn : set_.length % 2 = 0)
    (hne : set_ ≠ []) (shapes : List (List ℕ))
    (hok : isserlis_stationary set_ = Except.ok shapes) :
    ∀ shape ∈ shapes, ∃ c, shape.getLast? = some c ∧ 0 < c := by
  intro shape hshape
  rw [isserlis_stationary] at hok
  rcases hiss : isserlis set_ with e | parts
  · rw [hiss] at hok
    exact absurd hok (by simp)
  · rw [hiss] at hok
    obtain ⟨part, hpart, hsh⟩ := mapE_ok_mem hok shape hshape
    rw [isserlis] at hiss
    obtain ⟨p, _, _, rfl⟩ := isserlisRun_mem hiss part hpart
    have hpos : 0 < set_.length := List.length_pos.mpr hne
    have hlags : (lagsOf set_.length (yieldOf set_ p)).length = (set_.length + 1) / 2 := by
      rw [lagsOf, List.length_map, List.length_range']
    have hne' : lagsOf set_.length (yieldOf set_ p) ≠ [] := by
      intro h
      rw [h] at hlags
      simp at hlags
      omega
    exact shapeOf_getLast hne' hsh

/-- C10 (witness): applied to the input `[0, 0, 1, 1]` and its second
yielded shape `[0, 2]`, whose last entry is `2 > 0`. -/
theorem stationary_last_positive_witness :
    ∃ c, List.getLast? [0, 2] = some c ∧ 0 < c :=
  stationary_last_positive [0, 0, 1, 1] (by rfl) (by decide) [[2], [0, 2], [0, 2]] (by rfl)
    [0, 2] (by simp)

end IsserlisPy

